import Mathlib

/-!
# Verification of the maze-solver grid reachability searcher

Shallow embedding of `src/maze_solver.py` (class `MazeSolver`): the
Manhattan heuristic `_heuristic`, the neighbor enumerator `_get_neighbors`,
and the A*-style search `find_path`, together with theorems settling the
specification claims.

Modelling conventions:
* Python integers are `Int`; coordinates are pairs `(row, col) : Int × Int`.
* The grid is a `List (List Int)`; `cellAt` returns `none` when an index
  falls outside the nested lists (the guarded accesses in the source never
  reach that case for rectangular grids).
* The `heapq` frontier is a list of `(f, counter, pos)` entries; a pop
  removes the entry that is minimal in the lexicographic tuple order, which
  is exactly the element `heapq.heappop` returns (counters are distinct, so
  the minimum is unique).
* The dictionary `g_score` is an association list, the set `open_set_hash`
  a list; the failing lookup `g_score[current]` (a potential `KeyError`) is
  modelled by the `StepRes.fail` outcome, and the `while` loop by
  fuel-indexed recursion: `none` = fuel exhausted, `some r` = the function
  returned.
-/

namespace MazeCheck

/-- A coordinate `(row, col)`, as the Python `Tuple[int, int]`. -/
abbrev Pos := Int × Int

/-- The maze: a list of rows of cell values (`0` = open, `1` = wall),
as loaded into `self.maze`. -/
abbrev Grid := List (List Int)

/-- `self.rows = len(self.maze)`. -/
def gridRows (m : Grid) : Int := (m.length : Int)

/-- `self.cols = len(self.maze[0]) if self.rows > 0 else 0`. -/
def gridCols (m : Grid) : Int :=
  match m with
  | [] => 0
  | r :: _ => (r.length : Int)

/-- `self.maze[r][c]` for nonnegative in-list indices, `none` otherwise.
Every access in the source is guarded by `0 <= r < self.rows` and
`0 <= c < self.cols`, so for rectangular grids the guarded accesses always
produce `some`. -/
def cellAt (m : Grid) (r c : Int) : Option Int :=
  if 0 ≤ r ∧ 0 ≤ c then (m.get? r.toNat).bind fun row => row.get? c.toNat
  else none

/-- `_heuristic`: Manhattan distance `|pos[0]-goal[0]| + |pos[1]-goal[1]|`. -/
def heuristic (pos goal : Pos) : Int :=
  |pos.1 - goal.1| + |pos.2 - goal.2|

/-- The four offsets `[(-1,0),(1,0),(0,-1),(0,1)]` of `_get_neighbors`,
in source order. -/
def directions : List Pos := [(-1, 0), (1, 0), (0, -1), (0, 1)]

/-- In-bounds check `0 <= row < rows and 0 <= col < cols`. -/
def inBounds (m : Grid) (p : Pos) : Prop :=
  0 ≤ p.1 ∧ p.1 < gridRows m ∧ 0 ≤ p.2 ∧ p.2 < gridCols m

instance (m : Grid) (p : Pos) : Decidable (inBounds m p) := by
  unfold inBounds; infer_instance

/-- `_get_neighbors`: the four offset results that are in-bounds and whose
cell value is `0`, in offset order. -/
def getNeighbors (m : Grid) (p : Pos) : List Pos :=
  directions.filterMap fun d =>
    let q : Pos := (p.1 + d.1, p.2 + d.2)
    if inBounds m q then
      if cellAt m q.1 q.2 = some 0 then some q else none
    else none

/-- A frontier entry `(f_score, tie-breaker counter, position)`. -/
abbrev Entry := Int × Int × Pos

def entryF (e : Entry) : Int := e.1

def entryCnt (e : Entry) : Int := e.2.1

def entryPos (e : Entry) : Pos := e.2.2

/-- Strict lexicographic order on heap entries, as Python compares the
tuples `(f, counter, position)`. -/
def entryLt (a b : Entry) : Bool :=
  if a.1 < b.1 then true
  else if b.1 < a.1 then false
  else if a.2.1 < b.2.1 then true
  else if b.2.1 < a.2.1 then false
  else if a.2.2.1 < b.2.2.1 then true
  else if b.2.2.1 < a.2.2.1 then false
  else decide (a.2.2.2 < b.2.2.2)

/-- The minimal entry of `e :: l` under `entryLt` (first one among equals). -/
def findMinEntry (e : Entry) (l : List Entry) : Entry :=
  l.foldl (fun acc x => if entryLt x acc then x else acc) e

/-- Remove the first occurrence of an entry from the frontier list. -/
def eraseEntry : List Entry → Entry → List Entry
  | [], _ => []
  | x :: t, a => if x = a then t else x :: eraseEntry t a

/-- `heapq.heappop`: remove and return the minimal entry.  Counters are
distinct in every reachable frontier, so the minimum is unique and this is
exactly the element the binary heap yields. -/
def popMin (l : List Entry) : Option (Entry × List Entry) :=
  match l with
  | [] => none
  | h :: t =>
    let e := findMinEntry h t
    some (e, eraseEntry (h :: t) e)

/-- Lookup in the association list modelling the dict `g_score`. -/
def lookup : List (Pos × Int) → Pos → Option Int
  | [], _ => none
  | (k, v) :: t, p => if k = p then some v else lookup t p

/-- Dict assignment `g_score[p] = v`: overwrite an existing binding or
append a new one. -/
def insertG : List (Pos × Int) → Pos → Int → List (Pos × Int)
  | [], p, v => [(p, v)]
  | (k, w) :: t, p, v => if k = p then (p, v) :: t else (k, w) :: insertG t p v

/-- `open_set_hash.discard p`. -/
def discardP (l : List Pos) (p : Pos) : List Pos :=
  l.filter fun q => decide (q ≠ p)

/-- The local state of one `find_path` search session. -/
structure AState where
  openSet : List Entry
  counter : Int
  gScore : List (Pos × Int)
  openSetHash : List Pos
  bestGoalCost : Option Int
deriving DecidableEq

/-- The state created just before the `while` loop:
`open_set = [(0, 0, start)]`, `counter = 1`, `g_score = {start: 0}`,
`open_set_hash = {start}`, `best_goal_cost = None`. -/
def initState (start : Pos) : AState :=
  { openSet := [(0, 0, start)]
    counter := 1
    gScore := [(start, 0)]
    openSetHash := [start]
    bestGoalCost := none }

/-- Processing of one neighbor inside the `for neighbor in ...` loop. -/
def relax (endP : Pos) (currentG : Int) (st : AState) (nb : Pos) :
    AState :=
  let tg := currentG + 1
  let improve : Bool :=
    match lookup st.gScore nb with
    | none => true
    | some old => decide (tg < old)
  if improve then
    let g' := insertG st.gScore nb tg
    let f := tg + heuristic nb endP
    if nb ∈ st.openSetHash then
      { st with gScore := g' }
    else
      { st with
          gScore := g'
          openSet := st.openSet ++ [(f, st.counter, nb)]
          counter := st.counter + 1
          openSetHash := nb :: st.openSetHash }
  else st

/-- Result of one `while` iteration: the function returns a boolean (with
the final `best_goal_cost`), continues with a new state, or hits the
(`KeyError`) lookup failure. -/
inductive StepRes where
  | done (reachable : Bool) (cost : Option Int)
  | next (s : AState)
  | fail
deriving DecidableEq

/-- One iteration of the `while open_set:` loop. -/
def step (m : Grid) (endP : Pos) (s : AState) : StepRes :=
  match popMin s.openSet with
  | none => .done false s.bestGoalCost
  | some (e, rest) =>
    let current := entryPos e
    let currentF := entryF e
    let hash1 := discardP s.openSetHash current
    match lookup s.gScore current with
    | none => .fail
    | some currentG =>
      let best1 : Option Int :=
        if current = endP then
          match s.bestGoalCost with
          | none => some currentG
          | some b => some (min b currentG)
        else s.bestGoalCost
      match best1 with
      | some b =>
        if b ≤ currentF then .done true (some b)
        else
          .next ((getNeighbors m current).foldl (relax endP currentG)
            { s with openSet := rest, openSetHash := hash1,
                     bestGoalCost := some b })
      | none =>
        .next ((getNeighbors m current).foldl (relax endP currentG)
          { s with openSet := rest, openSetHash := hash1,
                   bestGoalCost := none })

/-- The `while` loop, with fuel: `none` = fuel exhausted, `some (.error ())`
= the `g_score[current]` lookup failed (`KeyError`), `some (.ok (b, c))` =
`find_path` returned `b` with `best_goal_cost = c`. -/
def runLoop (m : Grid) (endP : Pos) : Nat → AState → Option (Except Unit (Bool × Option Int))
  | 0, _ => none
  | n + 1, s =>
    match step m endP s with
    | .fail => some (.error ())
    | .done b c => some (.ok (b, c))
    | .next s' => runLoop m endP n s'

/-- The column count as a natural number. -/
def colsNat (m : Grid) : Nat :=
  match m with
  | [] => 0
  | r :: _ => r.length

/-- Number of grid cells `rows * cols`. -/
def cellCount (m : Grid) : Nat := m.length * colsNat m

/-- Fuel that strictly exceeds the loop measure of any reachable state
(proved below), so the embedded loop never runs out. -/
def searchFuel (m : Grid) : Nat := 2 * cellCount m * cellCount m + 2

/-- `find_path`, with the internal `best_goal_cost` exposed alongside the
returned boolean.  The input-validation block runs first; the search state
is created only in the final branch. -/
def findPathFull (m : Grid) (start endP : Pos) :
    Option (Except Unit (Bool × Option Int)) :=
  if ¬ inBounds m start then some (.ok (false, none))
  else if ¬ inBounds m endP then some (.ok (false, none))
  else if cellAt m start.1 start.2 = some 1 ∨ cellAt m endP.1 endP.2 = some 1 then
    some (.ok (false, none))
  else if start = endP then some (.ok (true, none))
  else runLoop m endP (searchFuel m) (initState start)

/-- `find_path` as in the source: only the boolean is returned. -/
def find_path (m : Grid) (start endP : Pos) : Option (Except Unit Bool) :=
  (findPathFull m start endP).map fun r => r.map Prod.fst

/-- The state at the start of iteration `n` of the `while` loop (`none`
when the loop has already returned, or failed, by then). -/
def iterA (m : Grid) (endP : Pos) : Nat → AState → Option AState
  | 0, s => some s
  | n + 1, s =>
    match step m endP s with
    | .next s' => iterA m endP n s'
    | _ => none

/-! ## Specification-side notions: walks on the grid -/

/-- One step of 4-directional movement: `q` is one of the open, in-bounds
neighbors of `p`. -/
def Adjacent (m : Grid) (p q : Pos) : Prop := q ∈ getNeighbors m p

instance (m : Grid) (p q : Pos) : Decidable (Adjacent m p q) := by
  unfold Adjacent; infer_instance

/-- `IsWalk m a l`: starting at `a`, the successive cells of `l` each take
one 4-directional step to an open, in-bounds cell. -/
def IsWalk (m : Grid) : Pos → List Pos → Prop
  | _, [] => True
  | a, q :: t => Adjacent m a q ∧ IsWalk m q t

instance (m : Grid) (a : Pos) (l : List Pos) : Decidable (IsWalk m a l) := by
  induction l generalizing a with
  | nil => exact isTrue trivial
  | cons q t ih =>
    haveI := ih q
    exact instDecidableAnd

/-- The endpoint of the walk `l` starting at `a`. -/
def walkEnd : Pos → List Pos → Pos
  | a, [] => a
  | _, x :: t => walkEnd x t

/-- A 4-directionally-connected path of open cells from `a` to `b` exists
(`a = b` is witnessed by the zero-length walk `[]`). -/
def Reachable (m : Grid) (a b : Pos) : Prop :=
  ∃ l, IsWalk m a l ∧ walkEnd a l = b

/-- `valid open cell`: in-bounds and unoccupied. -/
def OpenCell (m : Grid) (p : Pos) : Prop :=
  inBounds m p ∧ cellAt m p.1 p.2 = some 0

instance (m : Grid) (p : Pos) : Decidable (OpenCell m p) := by
  unfold OpenCell; infer_instance

/-- The grid is rectangular: every row has length `cols`. -/
def Rectangular (m : Grid) : Prop :=
  ∀ row ∈ m, (row.length : Int) = gridCols m

instance (m : Grid) : Decidable (Rectangular m) := by
  unfold Rectangular; infer_instance

/-- All cell values are the bits `0` or `1`. -/
def BinaryGrid (m : Grid) : Prop :=
  ∀ row ∈ m, ∀ v ∈ row, v = 0 ∨ v = 1

instance (m : Grid) : Decidable (BinaryGrid m) := by
  unfold BinaryGrid; infer_instance

/-- Number of frontier entries recorded for coordinate `p`. -/
def countPos (l : List Entry) (p : Pos) : Nat :=
  (l.filter fun e => decide (entryPos e = p)).length

/-! ## Variant of the search that records the goal cost only on the first
pop of the goal (dropping the `min` with a previously recorded value). -/

/-- `step`, with the goal-cost update simplified to "record on the first
pop of the goal": a previously recorded cost is kept unchanged. -/
def stepFP (m : Grid) (endP : Pos) (s : AState) : StepRes :=
  match popMin s.openSet with
  | none => .done false s.bestGoalCost
  | some (e, rest) =>
    let current := entryPos e
    let currentF := entryF e
    let hash1 := discardP s.openSetHash current
    match lookup s.gScore current with
    | none => .fail
    | some currentG =>
      let best1 : Option Int :=
        if current = endP ∧ s.bestGoalCost = none then some currentG
        else s.bestGoalCost
      match best1 with
      | some b =>
        if b ≤ currentF then .done true (some b)
        else
          .next ((getNeighbors m current).foldl (relax endP currentG)
            { s with openSet := rest, openSetHash := hash1,
                     bestGoalCost := some b })
      | none =>
        .next ((getNeighbors m current).foldl (relax endP currentG)
          { s with openSet := rest, openSetHash := hash1,
                   bestGoalCost := none })

/-- The loop of the first-pop variant. -/
def runLoopFP (m : Grid) (endP : Pos) :
    Nat → AState → Option (Except Unit (Bool × Option Int))
  | 0, _ => none
  | n + 1, s =>
    match stepFP m endP s with
    | .fail => some (.error ())
    | .done b c => some (.ok (b, c))
    | .next s' => runLoopFP m endP n s'

/-- `find_path` built on the first-pop variant of the goal-cost update. -/
def findPathFullFP (m : Grid) (start endP : Pos) :
    Option (Except Unit (Bool × Option Int)) :=
  if ¬ inBounds m start then some (.ok (false, none))
  else if ¬ inBounds m endP then some (.ok (false, none))
  else if cellAt m start.1 start.2 = some 1 ∨ cellAt m endP.1 endP.2 = some 1 then
    some (.ok (false, none))
  else if start = endP then some (.ok (true, none))
  else runLoopFP m endP (searchFuel m) (initState start)

/-! ## Search-state invariants -/

/-- Structural invariant of the loop state that holds for every query
reaching the `while` loop, with no assumption on the grid: the frontier
positions are duplicate-free, the membership set mirrors them, every
frontier position has a `g_score` entry, every frontier entry for the goal
dominates the goal's recorded `g`, and no goal cost has been recorded. -/
structure SlimInv (endP : Pos) (s : AState) : Prop where
  pos_nodup : (s.openSet.map entryPos).Nodup
  hash_iff : ∀ p : Pos, p ∈ s.openSetHash ↔ p ∈ s.openSet.map entryPos
  pos_keyed : ∀ ent ∈ s.openSet, (lookup s.gScore (entryPos ent)).isSome = true
  end_entry : ∀ ent ∈ s.openSet, entryPos ent = endP →
      ∃ v, lookup s.gScore endP = some v ∧ v ≤ entryF ent
  best_none : s.bestGoalCost = none

/-- Full invariant of the loop state for a search from `start`: the slim
invariant together with the bookkeeping used for termination and for
reachability (keys are distinct in-bounds cells reached from `start` with
nonnegative `g` values bounded by the number of keys, fully processed keys
have all neighbors keyed, and a keyed goal is still pending). -/
structure Inv (m : Grid) (start endP : Pos) (s : AState) extends
    SlimInv endP s : Prop where
  keys_nodup : (s.gScore.map Prod.fst).Nodup
  keys_inb : ∀ kv ∈ s.gScore, inBounds m kv.1
  val_nonneg : ∀ kv ∈ s.gScore, 0 ≤ kv.2
  val_lt : ∀ kv ∈ s.gScore, kv.2.toNat < s.gScore.length
  closure : ∀ kv ∈ s.gScore, kv.1 ∉ s.openSetHash →
      ∀ q ∈ getNeighbors m kv.1, (lookup s.gScore q).isSome = true
  end_pending : (lookup s.gScore endP).isSome = true → endP ∈ s.openSetHash
  start_keyed : (lookup s.gScore start).isSome = true

/-- Every `g_score` key has been reached from `start` by a walk. -/
def WalkInv (m : Grid) (start : Pos) (s : AState) : Prop :=
  ∀ kv ∈ s.gScore, Reachable m start kv.1

/-- Mid-iteration invariant: the state during the neighbor loop of a pop of
`cur`, whose `g_score` entry is `currentG` and which has been removed from
the frontier and the membership set. -/
structure MidInv (m : Grid) (start endP cur : Pos) (currentG : Int)
    (st : AState) extends SlimInv endP st : Prop where
  keys_nodup : (st.gScore.map Prod.fst).Nodup
  keys_inb : ∀ kv ∈ st.gScore, inBounds m kv.1
  val_nonneg : ∀ kv ∈ st.gScore, 0 ≤ kv.2
  val_lt : ∀ kv ∈ st.gScore, kv.2.toNat < st.gScore.length
  cur_g : lookup st.gScore cur = some currentG
  cur_not_hash : cur ∉ st.openSetHash
  closure_except : ∀ kv ∈ st.gScore, kv.1 ∉ st.openSetHash → kv.1 ≠ cur →
      ∀ q ∈ getNeighbors m kv.1, (lookup st.gScore q).isSome = true
  end_pending : (lookup st.gScore endP).isSome = true → endP ∈ st.openSetHash
  start_keyed : (lookup st.gScore start).isSome = true

/-! ## Termination measure -/

/-- Sum of the (nonnegative) recorded `g` values. -/
def gWeight (l : List (Pos × Int)) : Nat :=
  (l.map fun kv => kv.2.toNat).sum

/-- Potential of the best-cost map: recorded values plus a weight of
`cellCount m` for every not-yet-keyed cell. -/
def potential (m : Grid) (s : AState) : Nat :=
  gWeight s.gScore + (cellCount m - s.gScore.length) * cellCount m

/-- The loop measure: strictly decreases at every iteration. -/
def loopMeasure (m : Grid) (s : AState) : Nat :=
  2 * potential m s + s.openSet.length

/-! ## Concrete grids used to exercise the search -/

/-- 4×8 grid on which the search records a suboptimal goal cost. -/
def cexGrid : Grid :=
  [[1, 1, 0, 0, 0, 0, 1, 0],
   [0, 0, 0, 1, 1, 0, 1, 0],
   [0, 1, 0, 0, 1, 0, 0, 0],
   [0, 0, 0, 0, 0, 0, 1, 1]]

/-- An 11-step walk from `(2,0)` to `(0,7)` in `cexGrid`, shorter than the
cost `13` the search records there. -/
def cexWalk : List Pos :=
  [(3, 0), (3, 1), (3, 2), (3, 3), (3, 4), (3, 5), (2, 5), (2, 6), (2, 7),
   (1, 7), (0, 7)]

/-- 3×5 grid on which a strictly better `g` is found for a coordinate that
is still pending in the frontier. -/
def bugGrid : Grid :=
  [[0, 0, 0, 1, 0],
   [0, 1, 0, 0, 0],
   [0, 0, 0, 0, 0]]

/-- 1×2 grid with two open cells, used to exercise the theorems on a
concrete valid query. -/
def rowGrid : Grid := [[0, 0]]

/-- The loop state after 3 iterations of the search on `bugGrid`. -/
def wStateC10 : AState :=
  (iterA bugGrid (0, 4) 3 (initState (1, 0))).getD (initState (1, 0))

/-- The loop state after 2 iterations of the search on `bugGrid`. -/
def wStateC4 : AState :=
  (iterA bugGrid (0, 4) 2 (initState (1, 0))).getD (initState (1, 0))

/-- The relaxation condition of the source:
`neighbor not in g_score or tentative_g < g_score[neighbor]`. -/
def Improves (st : AState) (nb : Pos) (currentG : Int) : Prop :=
  lookup st.gScore nb = none ∨
    ∃ old, lookup st.gScore nb = some old ∧ currentG + 1 < old

/-! ## Lemmas on the frontier operations -/

lemma mem_of_mem_eraseEntry {l : List Entry} {a x : Entry}
    (h : x ∈ eraseEntry l a) : x ∈ l := by
  induction l with
  | nil => simp [eraseEntry] at h
  | cons y t ih =>
    by_cases hy : y = a
    · simp only [eraseEntry, if_pos hy] at h
      exact List.mem_cons_of_mem _ h
    · simp only [eraseEntry, if_neg hy, List.mem_cons] at h
      rcases h with h | h
      · exact h ▸ List.mem_cons_self _ _
      · exact List.mem_cons_of_mem _ (ih h)

lemma perm_cons_eraseEntry {l : List Entry} {a : Entry} (h : a ∈ l) :
    l.Perm (a :: eraseEntry l a) := by
  induction l with
  | nil => cases h
  | cons y t ih =>
    by_cases hy : y = a
    · subst hy
      simp [eraseEntry]
    · rcases List.mem_cons.mp h with h' | h'
      · exact absurd h'.symm hy
      · simp only [eraseEntry, if_neg hy]
        exact ((ih h').cons y).trans (List.Perm.swap a y _)

lemma popMin_eq_none {l : List Entry} : popMin l = none ↔ l = [] := by
  cases l <;> simp [popMin]

lemma findMinEntry_mem (e : Entry) (l : List Entry) :
    findMinEntry e l ∈ e :: l := by
  induction l generalizing e with
  | nil => simp [findMinEntry]
  | cons x t ih =>
    show findMinEntry (if entryLt x e then x else e) t ∈ e :: x :: t
    by_cases hx : entryLt x e
    · rw [if_pos hx]
      rcases List.mem_cons.mp (ih x) with h' | h'
      · rw [h']; simp
      · simp [List.mem_cons_of_mem, h']
    · rw [if_neg hx]
      rcases List.mem_cons.mp (ih e) with h' | h'
      · rw [h']; simp
      · simp [List.mem_cons_of_mem, h']

lemma popMin_some_mem {l r : List Entry} {e : Entry}
    (h : popMin l = some (e, r)) : e ∈ l := by
  cases l with
  | nil => simp [popMin] at h
  | cons x t =>
    simp only [popMin, Option.some.injEq, Prod.mk.injEq] at h
    exact h.1 ▸ findMinEntry_mem x t

lemma popMin_some_rest {l r : List Entry} {e : Entry}
    (h : popMin l = some (e, r)) : r = eraseEntry l e := by
  cases l with
  | nil => simp [popMin] at h
  | cons x t =>
    simp only [popMin, Option.some.injEq, Prod.mk.injEq] at h
    rw [← h.2, ← h.1]

lemma popMin_some_perm {l r : List Entry} {e : Entry}
    (h : popMin l = some (e, r)) : l.Perm (e :: r) := by
  rw [popMin_some_rest h]
  exact perm_cons_eraseEntry (popMin_some_mem h)

lemma popMin_some_length {l r : List Entry} {e : Entry}
    (h : popMin l = some (e, r)) : l.length = r.length + 1 := by
  simpa using (popMin_some_perm h).length_eq

/-! ## Lemmas on the best-cost map -/

lemma lookup_isSome_iff {l : List (Pos × Int)} {p : Pos} :
    (lookup l p).isSome = true ↔ p ∈ l.map Prod.fst := by
  induction l with
  | nil => simp [lookup]
  | cons kv t ih =>
    by_cases hk : kv.1 = p
    · obtain ⟨k, v⟩ := kv
      simp_all [lookup]
    · obtain ⟨k, v⟩ := kv
      simp only at hk
      simp [lookup, hk, ih, Ne.symm hk]

lemma lookup_cons (k : Pos) (w : Int) (t : List (Pos × Int)) (p : Pos) :
    lookup ((k, w) :: t) p = if k = p then some w else lookup t p := rfl

lemma insertG_cons (k : Pos) (w : Int) (t : List (Pos × Int)) (p : Pos)
    (v : Int) :
    insertG ((k, w) :: t) p v =
      if k = p then (p, v) :: t else (k, w) :: insertG t p v := rfl

lemma lookup_mem {l : List (Pos × Int)} {p : Pos} {v : Int}
    (h : lookup l p = some v) : (p, v) ∈ l := by
  induction l with
  | nil => simp [lookup] at h
  | cons kv t ih =>
    obtain ⟨k, w⟩ := kv
    rw [lookup_cons] at h
    by_cases hk : k = p
    · rw [if_pos hk] at h
      subst hk
      obtain rfl : w = v := by simpa using h
      simp
    · rw [if_neg hk] at h
      exact List.mem_cons_of_mem _ (ih h)

lemma lookup_insertG_self (l : List (Pos × Int)) (p : Pos) (v : Int) :
    lookup (insertG l p v) p = some v := by
  induction l with
  | nil => simp [insertG, lookup]
  | cons kv t ih =>
    obtain ⟨k, w⟩ := kv
    by_cases hk : k = p
    · simp [insertG, hk, lookup]
    · simp [insertG, hk, lookup, ih]

lemma lookup_insertG_ne (l : List (Pos × Int)) {p q : Pos} (v : Int)
    (h : q ≠ p) : lookup (insertG l p v) q = lookup l q := by
  induction l with
  | nil => simp [insertG, lookup, Ne.symm h]
  | cons kv t ih =>
    obtain ⟨k, w⟩ := kv
    rw [insertG_cons, lookup_cons]
    by_cases hk : k = p
    · subst hk
      rw [if_pos rfl, lookup_cons, if_neg (fun he => h he.symm),
        if_neg (fun he => h he.symm)]
    · rw [if_neg hk, lookup_cons]
      by_cases hq : k = q
      · rw [if_pos hq, if_pos hq]
      · rw [if_neg hq, if_neg hq, ih]

lemma lookup_insertG_isSome (l : List (Pos × Int)) (p q : Pos) (v : Int)
    (h : (lookup l q).isSome = true) :
    (lookup (insertG l p v) q).isSome = true := by
  by_cases hq : q = p
  · subst hq
    simp [lookup_insertG_self]
  · rwa [lookup_insertG_ne l v hq]

lemma mem_insertG {l : List (Pos × Int)} {p : Pos} {v : Int}
    {kv : Pos × Int} (h : kv ∈ insertG l p v) : kv = (p, v) ∨ kv ∈ l := by
  induction l with
  | nil => simpa [insertG] using h
  | cons kw t ih =>
    obtain ⟨k, w⟩ := kw
    by_cases hk : k = p
    · simp only [insertG, if_pos hk, List.mem_cons] at h
      rcases h with h | h
      · exact Or.inl h
      · exact Or.inr (List.mem_cons_of_mem _ h)
    · simp only [insertG, if_neg hk, List.mem_cons] at h
      rcases h with h | h
      · exact Or.inr (h ▸ List.mem_cons_self _ _)
      · rcases ih h with h' | h'
        · exact Or.inl h'
        · exact Or.inr (List.mem_cons_of_mem _ h')

lemma map_fst_insertG_of_mem {l : List (Pos × Int)} {p : Pos} (v : Int)
    (h : (lookup l p).isSome = true) :
    (insertG l p v).map Prod.fst = l.map Prod.fst := by
  induction l with
  | nil => simp [lookup] at h
  | cons kw t ih =>
    obtain ⟨k, w⟩ := kw
    by_cases hk : k = p
    · simp [insertG, hk]
    · simp only [lookup, if_neg hk] at h
      simp [insertG, hk, ih h]

lemma map_fst_insertG_of_not_mem {l : List (Pos × Int)} {p : Pos} (v : Int)
    (h : lookup l p = none) :
    (insertG l p v).map Prod.fst = l.map Prod.fst ++ [p] := by
  induction l with
  | nil => simp [insertG]
  | cons kw t ih =>
    obtain ⟨k, w⟩ := kw
    by_cases hk : k = p
    · simp [lookup, hk] at h
    · simp only [lookup, if_neg hk] at h
      simp [insertG, hk, ih h]

lemma length_insertG_of_mem {l : List (Pos × Int)} {p : Pos} (v : Int)
    (h : (lookup l p).isSome = true) :
    (insertG l p v).length = l.length := by
  have := map_fst_insertG_of_mem v h
  have h1 : ((insertG l p v).map Prod.fst).length = (l.map Prod.fst).length := by
    rw [this]
  simpa using h1

lemma length_insertG_of_not_mem {l : List (Pos × Int)} {p : Pos} (v : Int)
    (h : lookup l p = none) :
    (insertG l p v).length = l.length + 1 := by
  have := map_fst_insertG_of_not_mem v h
  have h1 : ((insertG l p v).map Prod.fst).length = (l.map Prod.fst).length + 1 := by
    rw [this]; simp
  simpa using h1

lemma keys_nodup_insertG {l : List (Pos × Int)} {p : Pos} (v : Int)
    (h : (l.map Prod.fst).Nodup) :
    ((insertG l p v).map Prod.fst).Nodup := by
  by_cases hp : (lookup l p).isSome = true
  · rwa [map_fst_insertG_of_mem v hp]
  · have hnone : lookup l p = none :=
      Option.not_isSome_iff_eq_none.mp (by simpa using hp)
    rw [map_fst_insertG_of_not_mem v hnone]
    refine List.nodup_append.mpr ⟨h, List.nodup_singleton p, fun q hq hq' => ?_⟩
    rcases List.mem_singleton.mp hq' with rfl
    exact hp (lookup_isSome_iff.mpr hq)

lemma gWeight_insertG_of_lookup {l : List (Pos × Int)} {p : Pos} {old : Int}
    (v : Int) (h : lookup l p = some old) :
    gWeight (insertG l p v) + old.toNat = gWeight l + v.toNat := by
  induction l with
  | nil => simp [lookup] at h
  | cons kw t ih =>
    obtain ⟨k, w⟩ := kw
    rw [lookup_cons] at h
    rw [insertG_cons]
    by_cases hk : k = p
    · rw [if_pos hk] at h ⊢
      obtain rfl : w = old := by simpa using h
      simp [gWeight]
      omega
    · rw [if_neg hk] at h ⊢
      have := ih h
      simp only [gWeight, List.map_cons, List.sum_cons] at *
      omega

lemma gWeight_insertG_of_not_mem {l : List (Pos × Int)} {p : Pos} (v : Int)
    (h : lookup l p = none) :
    gWeight (insertG l p v) = gWeight l + v.toNat := by
  induction l with
  | nil => simp [insertG, gWeight]
  | cons kw t ih =>
    obtain ⟨k, w⟩ := kw
    rw [lookup_cons] at h
    rw [insertG_cons]
    by_cases hk : k = p
    · rw [if_pos hk] at h
      simp at h
    · rw [if_neg hk] at h ⊢
      have := ih h
      simp only [gWeight, List.map_cons, List.sum_cons] at *
      omega

/-! ## Lemmas on the membership set and the neighbor enumerator -/

lemma mem_discardP {l : List Pos} {p q : Pos} :
    q ∈ discardP l p ↔ q ∈ l ∧ q ≠ p := by
  simp [discardP, List.mem_filter]

lemma getNeighbors_eq_filter (m : Grid) (p : Pos) :
    getNeighbors m p = (directions.map fun d => ((p.1 + d.1, p.2 + d.2) : Pos)).filter
      fun q => decide (inBounds m q ∧ cellAt m q.1 q.2 = some 0) := by
  unfold getNeighbors
  generalize directions = L
  induction L with
  | nil => rfl
  | cons d t ih =>
    simp only [List.filterMap_cons, List.map_cons, List.filter_cons]
    by_cases h1 : inBounds m (p.1 + d.1, p.2 + d.2)
    · by_cases h2 : cellAt m (p.1 + d.1) (p.2 + d.2) = some 0
      · simp [h1, h2, ih]
      · simp [h1, h2, ih]
    · simp [h1, ih]

lemma mem_getNeighbors {m : Grid} {p q : Pos} (h : q ∈ getNeighbors m p) :
    inBounds m q ∧ cellAt m q.1 q.2 = some 0 := by
  rw [getNeighbors_eq_filter] at h
  simpa using List.of_mem_filter h

lemma mem_getNeighbors_offsets {m : Grid} {p q : Pos}
    (h : q ∈ getNeighbors m p) :
    q ∈ directions.map fun d => ((p.1 + d.1, p.2 + d.2) : Pos) := by
  rw [getNeighbors_eq_filter] at h
  exact List.mem_of_mem_filter h

lemma self_not_mem_getNeighbors (m : Grid) (p : Pos) :
    p ∉ getNeighbors m p := by
  intro h
  have := mem_getNeighbors_offsets h
  simp only [directions, List.map_cons, List.map_nil, List.mem_cons,
    List.not_mem_nil, or_false, Prod.ext_iff] at this
  rcases this with ⟨h1, _⟩ | ⟨h1, _⟩ | ⟨_, h2⟩ | ⟨_, h2⟩ <;> omega

lemma heuristic_self (a : Pos) : heuristic a a = 0 := by
  simp [heuristic]

/-! ## Lemmas on walks -/

lemma walkEnd_nil (a : Pos) : walkEnd a [] = a := rfl

lemma walkEnd_cons (a x : Pos) (t : List Pos) :
    walkEnd a (x :: t) = walkEnd x t := rfl

lemma walkEnd_append_singleton (a q : Pos) (l : List Pos) :
    walkEnd a (l ++ [q]) = q := by
  induction l generalizing a with
  | nil => rfl
  | cons x t ih => exact ih x

lemma isWalk_append_singleton {m : Grid} {a q : Pos} {l : List Pos} :
    IsWalk m a (l ++ [q]) ↔ IsWalk m a l ∧ Adjacent m (walkEnd a l) q := by
  induction l generalizing a with
  | nil => simp [IsWalk, walkEnd_nil]
  | cons x t ih =>
    show (Adjacent m a x ∧ IsWalk m x (t ++ [q])) ↔
      (Adjacent m a x ∧ IsWalk m x t) ∧ Adjacent m (walkEnd x t) q
    rw [ih]
    tauto

lemma reachable_refl (m : Grid) (a : Pos) : Reachable m a a :=
  ⟨[], trivial, rfl⟩

lemma reachable_snoc {m : Grid} {a b q : Pos}
    (h : Reachable m a b) (hq : Adjacent m b q) : Reachable m a q := by
  obtain ⟨l, hw, he⟩ := h
  exact ⟨l ++ [q], isWalk_append_singleton.mpr ⟨hw, he ▸ hq⟩,
    walkEnd_append_singleton a q l⟩

lemma mem_getNeighbors_iff {m : Grid} {p q : Pos} :
    q ∈ getNeighbors m p ↔
      (q ∈ directions.map fun d => ((p.1 + d.1, p.2 + d.2) : Pos)) ∧
        inBounds m q ∧ cellAt m q.1 q.2 = some 0 := by
  rw [getNeighbors_eq_filter]
  simp [List.mem_filter]

lemma adjacent_symm {m : Grid} {p q : Pos} (h : Adjacent m p q)
    (hp : OpenCell m p) : Adjacent m q p := by
  unfold Adjacent at *
  rw [mem_getNeighbors_iff] at h
  rw [mem_getNeighbors_iff]
  refine ⟨?_, hp.1, hp.2⟩
  obtain ⟨hoff, _⟩ := h
  simp only [directions, List.map_cons, List.map_nil, List.mem_cons,
    List.not_mem_nil, or_false, Prod.ext_iff] at hoff ⊢
  rcases hoff with ⟨h1, h2⟩ | ⟨h1, h2⟩ | ⟨h1, h2⟩ | ⟨h1, h2⟩ <;> omega

lemma isWalk_reverse {m : Grid} :
    ∀ (l : List Pos) (a : Pos), IsWalk m a l → OpenCell m a →
      Reachable m (walkEnd a l) a := by
  intro l
  induction l with
  | nil =>
    intro a _ _
    exact reachable_refl m a
  | cons x t ih =>
    intro a hw ha
    obtain ⟨hax, hwt⟩ := hw
    have hx : OpenCell m x := by
      have := mem_getNeighbors hax
      exact ⟨this.1, this.2⟩
    exact reachable_snoc (ih x hwt hx) (adjacent_symm hax ha)

lemma reachable_symm {m : Grid} {a b : Pos} (ha : OpenCell m a)
    (h : Reachable m a b) : Reachable m b a := by
  obtain ⟨l, hw, he⟩ := h
  exact he ▸ isWalk_reverse l a hw ha

/-! ## Counting keyed cells -/

lemma gridCols_eq_colsNat (m : Grid) : gridCols m = (colsNat m : Int) := by
  cases m <;> rfl

lemma keys_length_le_cellCount {m : Grid} {l : List (Pos × Int)}
    (hn : (l.map Prod.fst).Nodup) (hb : ∀ kv ∈ l, inBounds m kv.1) :
    l.length ≤ cellCount m := by
  classical
  have hblist : ∀ p ∈ l.map Prod.fst, inBounds m p := by
    intro p hp
    rw [List.mem_map] at hp
    obtain ⟨kv, hkv, rfl⟩ := hp
    exact hb kv hkv
  have hinj : ∀ x ∈ l.map Prod.fst, ∀ y ∈ l.map Prod.fst,
      (x.1.toNat, x.2.toNat) = (y.1.toNat, y.2.toNat) → x = y := by
    intro x hx y hy hxy
    obtain ⟨hx1, _, hx2, _⟩ := hblist x hx
    obtain ⟨hy1, _, hy2, _⟩ := hblist y hy
    obtain ⟨x1, x2⟩ := x
    obtain ⟨y1, y2⟩ := y
    simp only [Prod.mk.injEq] at hxy ⊢
    omega
  have hmn : ((l.map Prod.fst).map fun p : Pos => (p.1.toNat, p.2.toNat)).Nodup :=
    hn.map_on hinj
  have hsub : ∀ x ∈ (l.map Prod.fst).map fun p : Pos => (p.1.toNat, p.2.toNat),
      x ∈ Finset.range m.length ×ˢ Finset.range (colsNat m) := by
    intro x hx
    rw [List.mem_map] at hx
    obtain ⟨p, hp, rfl⟩ := hx
    obtain ⟨h1, h2, h3, h4⟩ := hblist p hp
    rw [gridCols_eq_colsNat] at h4
    unfold gridRows at h2
    rw [Finset.mem_product, Finset.mem_range, Finset.mem_range]
    omega
  calc l.length
      = ((l.map Prod.fst).map fun p : Pos => (p.1.toNat, p.2.toNat)).length := by simp
    _ = ((l.map Prod.fst).map fun p : Pos => (p.1.toNat, p.2.toNat)).toFinset.card :=
        (List.toFinset_card_of_nodup hmn).symm
    _ ≤ (Finset.range m.length ×ˢ Finset.range (colsNat m)).card :=
        Finset.card_le_card fun x hx => hsub x (List.mem_toFinset.mp hx)
    _ = cellCount m := by simp [cellCount]

/-! ## Characterization of the neighbor-relaxation step -/

lemma relax_of_not_improve {endP : Pos} {currentG : Int} {st : AState}
    {nb : Pos} {old : Int} (hl : lookup st.gScore nb = some old)
    (hge : old ≤ currentG + 1) :
    relax endP currentG st nb = st := by
  unfold relax
  rw [hl]
  simp [show ¬ (currentG + 1 < old) from not_lt.mpr hge]

lemma relax_of_improve_mem {endP : Pos} {currentG : Int} {st : AState}
    {nb : Pos} (him : Improves st nb currentG) (hm : nb ∈ st.openSetHash) :
    relax endP currentG st nb =
      { st with gScore := insertG st.gScore nb (currentG + 1) } := by
  unfold relax
  rcases him with hl | ⟨old, hl, hlt⟩
  · rw [hl]; simp [hm]
  · rw [hl]; simp [hm, hlt]

lemma relax_of_improve_not_mem {endP : Pos} {currentG : Int} {st : AState}
    {nb : Pos} (him : Improves st nb currentG) (hm : nb ∉ st.openSetHash) :
    relax endP currentG st nb =
      { st with
          gScore := insertG st.gScore nb (currentG + 1)
          openSet := st.openSet ++
            [(currentG + 1 + heuristic nb endP, st.counter, nb)]
          counter := st.counter + 1
          openSetHash := nb :: st.openSetHash } := by
  unfold relax
  rcases him with hl | ⟨old, hl, hlt⟩
  · rw [hl]; simp [hm]
  · rw [hl]; simp [hm, hlt]

lemma improves_or_not (st : AState) (nb : Pos) (currentG : Int) :
    Improves st nb currentG ∨
      (∃ old, lookup st.gScore nb = some old ∧ old ≤ currentG + 1) := by
  cases hl : lookup st.gScore nb with
  | none => exact Or.inl (Or.inl hl)
  | some old =>
    by_cases hlt : currentG + 1 < old
    · exact Or.inl (Or.inr ⟨old, hl ▸ rfl, hlt⟩)
    · exact Or.inr ⟨old, hl ▸ rfl, not_lt.mp hlt⟩

/-! ## Preservation of the slim invariant -/

lemma end_entry_insertG {endP nb : Pos} {currentG : Int} {st : AState}
    (hs : SlimInv endP st) (him : Improves st nb currentG) :
    ∀ ent ∈ st.openSet, entryPos ent = endP →
      ∃ v, lookup (insertG st.gScore nb (currentG + 1)) endP = some v ∧
        v ≤ entryF ent := by
  intro ent hent hpos
  obtain ⟨v, hv, hvf⟩ := hs.end_entry ent hent hpos
  by_cases hne : nb = endP
  · subst hne
    refine ⟨currentG + 1, lookup_insertG_self _ _ _, ?_⟩
    rcases him with hnone | ⟨old, hlo, hlt⟩
    · rw [hnone] at hv; cases hv
    · rw [hlo] at hv
      obtain rfl : old = v := by injection hv
      exact le_trans (le_of_lt hlt) hvf
  · rw [lookup_insertG_ne _ _ fun he => hne he.symm]
    exact ⟨v, hv, hvf⟩

lemma relax_slim {endP : Pos} (currentG : Int) {st : AState} (nb : Pos)
    (hs : SlimInv endP st) :
    SlimInv endP (relax endP currentG st nb) := by
  rcases improves_or_not st nb currentG with him | ⟨old, hl, hge⟩
  case inr => rw [relax_of_not_improve hl hge]; exact hs
  by_cases hm : nb ∈ st.openSetHash
  · rw [relax_of_improve_mem him hm]
    refine ⟨hs.pos_nodup, hs.hash_iff, ?_, ?_, hs.best_none⟩
    · intro ent hent
      exact lookup_insertG_isSome _ _ _ _ (hs.pos_keyed ent hent)
    · exact end_entry_insertG hs him
  · rw [relax_of_improve_not_mem him hm]
    have hnb_not_pos : nb ∉ st.openSet.map entryPos :=
      fun h => hm ((hs.hash_iff nb).mpr h)
    refine ⟨?_, ?_, ?_, ?_, hs.best_none⟩
    · show ((st.openSet ++ [(currentG + 1 + heuristic nb endP, st.counter, nb)]).map
        entryPos).Nodup
      rw [List.map_append]
      refine List.nodup_append.mpr ⟨hs.pos_nodup, by simp, fun q hq hq' => ?_⟩
      simp only [List.map_cons, List.map_nil, List.mem_singleton] at hq'
      rcases hq' with rfl
      exact hnb_not_pos hq
    · intro p
      show p ∈ nb :: st.openSetHash ↔ _
      rw [List.map_append, List.mem_cons, List.mem_append, hs.hash_iff p]
      simp only [List.map_cons, List.map_nil, List.mem_singleton]
      constructor
      · rintro (rfl | h)
        · exact Or.inr rfl
        · exact Or.inl h
      · rintro (h | rfl)
        · exact Or.inr h
        · exact Or.inl rfl
    · intro ent hent
      rcases List.mem_append.mp hent with h | h
      · exact lookup_insertG_isSome _ _ _ _ (hs.pos_keyed ent h)
      · rcases List.mem_singleton.mp h with rfl
        show (lookup (insertG st.gScore nb (currentG + 1)) nb).isSome = true
        rw [lookup_insertG_self]
        rfl
    · intro ent hent hpos
      rcases List.mem_append.mp hent with h | h
      · exact end_entry_insertG hs him ent h hpos
      · rcases List.mem_singleton.mp h with rfl
        have hnbE : nb = endP := hpos
        subst hnbE
        refine ⟨currentG + 1, lookup_insertG_self _ _ _, ?_⟩
        show currentG + 1 ≤ currentG + 1 + heuristic nb nb
        rw [heuristic_self]
        omega

lemma foldl_relax_slim {endP : Pos} {currentG : Int} :
    ∀ (L : List Pos) (st : AState), SlimInv endP st →
      SlimInv endP (L.foldl (relax endP currentG) st) := by
  intro L
  induction L with
  | nil => intro st hs; exact hs
  | cons x t ih =>
    intro st hs
    exact ih (relax endP currentG st x) (relax_slim currentG x hs)

lemma slim_mid {endP : Pos} {s : AState} {e : Entry} {rest : List Entry}
    (hs : SlimInv endP s) (hpop : popMin s.openSet = some (e, rest)) :
    SlimInv endP
      { s with openSet := rest,
               openSetHash := discardP s.openSetHash (entryPos e),
               bestGoalCost := none } := by
  have hperm : (s.openSet.map entryPos).Perm
      (entryPos e :: rest.map entryPos) := by
    simpa using (popMin_some_perm hpop).map entryPos
  have hnodup : (entryPos e :: rest.map entryPos).Nodup :=
    hperm.nodup_iff.mp hs.pos_nodup
  have hnotmem : entryPos e ∉ rest.map entryPos := (List.nodup_cons.mp hnodup).1
  have hrest_sub : ∀ x ∈ rest, x ∈ s.openSet := by
    intro x hx
    rw [popMin_some_rest hpop] at hx
    exact mem_of_mem_eraseEntry hx
  refine ⟨(List.nodup_cons.mp hnodup).2, ?_, ?_, ?_, rfl⟩
  · intro p
    show p ∈ discardP s.openSetHash (entryPos e) ↔ p ∈ rest.map entryPos
    rw [mem_discardP, hs.hash_iff p, hperm.mem_iff, List.mem_cons]
    constructor
    · rintro ⟨h | h, hne⟩
      · exact absurd h hne
      · exact h
    · intro h
      refine ⟨Or.inr h, fun he => hnotmem (he ▸ h)⟩
  · intro ent hent
    exact hs.pos_keyed ent (hrest_sub ent hent)
  · intro ent hent hpos
    exact hs.end_entry ent (hrest_sub ent hent) hpos

lemma step_next_elim {m : Grid} {endP : Pos} {s s' : AState}
    (hs : SlimInv endP s) (h : step m endP s = .next s') :
    ∃ e rest currentG, popMin s.openSet = some (e, rest) ∧
      lookup s.gScore (entryPos e) = some currentG ∧ entryPos e ≠ endP ∧
      s' = (getNeighbors m (entryPos e)).foldl (relax endP currentG)
        { s with openSet := rest,
                 openSetHash := discardP s.openSetHash (entryPos e),
                 bestGoalCost := none } := by
  unfold step at h
  cases hpop : popMin s.openSet with
  | none => rw [hpop] at h; cases h
  | some er =>
    obtain ⟨e, rest⟩ := er
    rw [hpop] at h
    dsimp only at h
    cases hlook : lookup s.gScore (entryPos e) with
    | none => rw [hlook] at h; cases h
    | some currentG =>
      rw [hlook] at h
      dsimp only at h
      by_cases hE : entryPos e = endP
      · exfalso
        obtain ⟨v, hv, hvf⟩ :=
          hs.end_entry e (popMin_some_mem hpop) hE
        rw [hE] at hlook
        rw [hlook] at hv
        obtain rfl : currentG = v := by injection hv
        rw [if_pos hE, hs.best_none] at h
        dsimp only at h
        rw [if_pos hvf] at h
        cases h
      · rw [if_neg hE, hs.best_none] at h
        dsimp only at h
        refine ⟨e, rest, currentG, rfl, hlook, hE, ?_⟩
        injection h with h'
        exact h'.symm

lemma step_next_slim {m : Grid} {endP : Pos} {s s' : AState}
    (hs : SlimInv endP s) (h : step m endP s = .next s') :
    SlimInv endP s' := by
  obtain ⟨e, rest, currentG, hpop, hlook, hE, rfl⟩ := step_next_elim hs h
  exact foldl_relax_slim _ _ (slim_mid hs hpop)

lemma iterA_slim {m : Grid} {endP : Pos} :
    ∀ (n : Nat) (s s' : AState), iterA m endP n s = some s' →
      SlimInv endP s → SlimInv endP s' := by
  intro n
  induction n with
  | zero =>
    intro s s' h hs
    obtain rfl : s = s' := by simpa [iterA] using h
    exact hs
  | succ k ih =>
    intro s s' h hs
    unfold iterA at h
    cases hstep : step m endP s with
    | next s1 =>
      rw [hstep] at h
      exact ih s1 s' h (step_next_slim hs hstep)
    | done b c => rw [hstep] at h; cases h
    | fail => rw [hstep] at h; cases h

lemma sliminv_init (start endP : Pos) : SlimInv endP (initState start) := by
  refine ⟨by simp [initState, entryPos], ?_, ?_, ?_, rfl⟩
  · intro p
    simp [initState, entryPos]
  · intro ent hent
    rcases List.mem_singleton.mp hent with rfl
    simp [initState, entryPos, lookup]
  · intro ent hent hpos
    rcases List.mem_singleton.mp hent with rfl
    have : start = endP := hpos
    subst this
    exact ⟨0, by simp [initState, lookup], le_refl 0⟩

/-! ## Preservation of the full mid-iteration invariant, with the measure -/

lemma relax_midinv {m : Grid} {start endP cur : Pos} {currentG : Int}
    {st : AState} {nb : Pos}
    (hI : MidInv m start endP cur currentG st)
    (hnb : nb ∈ getNeighbors m cur) :
    MidInv m start endP cur currentG (relax endP currentG st nb) ∧
    (lookup (relax endP currentG st nb).gScore nb).isSome = true ∧
    (∀ p, (lookup st.gScore p).isSome = true →
      (lookup (relax endP currentG st nb).gScore p).isSome = true) ∧
    loopMeasure m (relax endP currentG st nb) ≤ loopMeasure m st := by
  have hslim : SlimInv endP (relax endP currentG st nb) :=
    relax_slim currentG nb hI.toSlimInv
  have hnbcur : nb ≠ cur := by
    intro he
    exact self_not_mem_getNeighbors m cur (he ▸ hnb)
  have hcur_mem : (cur, currentG) ∈ st.gScore := lookup_mem hI.cur_g
  have hG0 : 0 ≤ currentG := hI.val_nonneg _ hcur_mem
  have hGlt : currentG.toNat < st.gScore.length := hI.val_lt _ hcur_mem
  obtain ⟨hnb_inb, hnb_open⟩ := mem_getNeighbors hnb
  rcases improves_or_not st nb currentG with him | hno
  rotate_left
  · obtain ⟨old, hl, hge⟩ := hno
    rw [relax_of_not_improve hl hge] at hslim ⊢
    exact ⟨hI, by rw [hl]; rfl, fun p hp => hp, le_refl _⟩
  -- both improvement branches replace the best-cost map the same way
  have hg_self : lookup (insertG st.gScore nb (currentG + 1)) nb =
      some (currentG + 1) := lookup_insertG_self _ _ _
  have hg_mono : ∀ p, (lookup st.gScore p).isSome = true →
      (lookup (insertG st.gScore nb (currentG + 1)) p).isSome = true :=
    fun p hp => lookup_insertG_isSome _ _ _ _ hp
  have hkeys_nodup : ((insertG st.gScore nb (currentG + 1)).map Prod.fst).Nodup :=
    keys_nodup_insertG _ hI.keys_nodup
  have hkeys_inb : ∀ kv ∈ insertG st.gScore nb (currentG + 1), inBounds m kv.1 := by
    intro kv hkv
    rcases mem_insertG hkv with rfl | hkv'
    · exact hnb_inb
    · exact hI.keys_inb kv hkv'
  have hval_nonneg : ∀ kv ∈ insertG st.gScore nb (currentG + 1), 0 ≤ kv.2 := by
    intro kv hkv
    rcases mem_insertG hkv with rfl | hkv'
    · show (0 : Int) ≤ currentG + 1
      omega
    · exact hI.val_nonneg kv hkv'
  have hcurg' : lookup (insertG st.gScore nb (currentG + 1)) cur = some currentG := by
    rw [lookup_insertG_ne _ _ fun he => hnbcur he.symm]
    exact hI.cur_g
  have hlen_le : (insertG st.gScore nb (currentG + 1)).length ≤ cellCount m :=
    keys_length_le_cellCount hkeys_nodup hkeys_inb
  have hval_lt : ∀ kv ∈ insertG st.gScore nb (currentG + 1),
      kv.2.toNat < (insertG st.gScore nb (currentG + 1)).length := by
    rcases him with hnone | ⟨old, hlo, hlt⟩
    · have hlen := length_insertG_of_not_mem (currentG + 1) hnone
      intro kv hkv
      rcases mem_insertG hkv with rfl | hkv'
      · show (currentG + 1).toNat < _
        rw [hlen]
        omega
      · have := hI.val_lt kv hkv'
        rw [hlen]
        omega
    · have hlen := length_insertG_of_mem (currentG + 1) (by rw [hlo]; rfl)
      have hold_mem : (nb, old) ∈ st.gScore := lookup_mem hlo
      have hold_lt := hI.val_lt _ hold_mem
      intro kv hkv
      rcases mem_insertG hkv with rfl | hkv'
      · show (currentG + 1).toNat < _
        rw [hlen]
        omega
      · have := hI.val_lt kv hkv'
        rw [hlen]
        omega
  have hpot : gWeight (insertG st.gScore nb (currentG + 1)) +
      (cellCount m - (insertG st.gScore nb (currentG + 1)).length) * cellCount m + 1 ≤
      gWeight st.gScore + (cellCount m - st.gScore.length) * cellCount m := by
    rcases him with hnone | ⟨old, hlo, hlt⟩
    · have hlen := length_insertG_of_not_mem (currentG + 1) hnone
      have hgw := gWeight_insertG_of_not_mem (currentG + 1) hnone
      have hNlen : st.gScore.length + 1 ≤ cellCount m := by
        rw [hlen] at hlen_le
        omega
      have ha : (currentG + 1).toNat ≤ st.gScore.length := by omega
      rw [hlen, hgw]
      have h2 : (cellCount m - (st.gScore.length + 1)) * cellCount m + cellCount m =
          (cellCount m - st.gScore.length) * cellCount m := by
        have h3 : cellCount m - st.gScore.length =
            (cellCount m - (st.gScore.length + 1)) + 1 := by omega
        rw [h3]
        ring
      have ha2 : (currentG + 1).toNat < cellCount m := by omega
      linarith [h2, ha2]
    · have hlen := length_insertG_of_mem (currentG + 1) (by rw [hlo]; rfl)
      have hgw := gWeight_insertG_of_lookup (currentG + 1) hlo
      have hold_mem : (nb, old) ∈ st.gScore := lookup_mem hlo
      have hold_nonneg := hI.val_nonneg _ hold_mem
      have ha : (currentG + 1).toNat < old.toNat := by omega
      rw [hlen]
      have : gWeight (insertG st.gScore nb (currentG + 1)) + 1 ≤ gWeight st.gScore := by
        omega
      linarith [this]
  by_cases hm : nb ∈ st.openSetHash
  · -- strictly better g for a coordinate still pending: only the map changes
    rw [relax_of_improve_mem him hm] at hslim ⊢
    refine ⟨⟨hslim, hkeys_nodup, hkeys_inb, hval_nonneg, hval_lt, hcurg',
      hI.cur_not_hash, ?_, ?_, hg_mono _ hI.start_keyed⟩,
      by rw [hg_self]; rfl, hg_mono, ?_⟩
    · intro kv hkv hkv_hash hkv_cur q hq
      rcases mem_insertG hkv with rfl | hkv'
      · exact absurd hm hkv_hash
      · exact hg_mono _ (hI.closure_except kv hkv' hkv_hash hkv_cur q hq)
    · intro hE
      by_cases hEnb : endP = nb
      · exact hEnb ▸ hm
      · rw [lookup_insertG_ne _ _ hEnb] at hE
        exact hI.end_pending hE
    · show 2 * (gWeight (insertG st.gScore nb (currentG + 1)) +
        (cellCount m - (insertG st.gScore nb (currentG + 1)).length) * cellCount m) +
        st.openSet.length ≤ 2 * (gWeight st.gScore +
        (cellCount m - st.gScore.length) * cellCount m) + st.openSet.length
      omega
  · -- new coordinate (or re-discovered one): push a fresh frontier entry
    rw [relax_of_improve_not_mem him hm] at hslim ⊢
    refine ⟨⟨hslim, hkeys_nodup, hkeys_inb, hval_nonneg, hval_lt, hcurg',
      ?_, ?_, ?_, hg_mono _ hI.start_keyed⟩,
      by rw [hg_self]; rfl, hg_mono, ?_⟩
    · intro hc
      rcases List.mem_cons.mp hc with he | he
      · exact hnbcur he.symm
      · exact hI.cur_not_hash he
    · intro kv hkv hkv_hash hkv_cur q hq
      have hkv_nb : kv.1 ≠ nb := fun he => hkv_hash (he ▸ List.mem_cons_self _ _)
      have hkv_hash' : kv.1 ∉ st.openSetHash :=
        fun he => hkv_hash (List.mem_cons_of_mem _ he)
      rcases mem_insertG hkv with rfl | hkv'
      · exact absurd rfl hkv_nb
      · exact hg_mono _ (hI.closure_except kv hkv' hkv_hash' hkv_cur q hq)
    · intro hE
      by_cases hEnb : endP = nb
      · exact hEnb ▸ List.mem_cons_self _ _
      · rw [lookup_insertG_ne _ _ hEnb] at hE
        exact List.mem_cons_of_mem _ (hI.end_pending hE)
    · show 2 * (gWeight (insertG st.gScore nb (currentG + 1)) +
        (cellCount m - (insertG st.gScore nb (currentG + 1)).length) * cellCount m) +
        (st.openSet ++ [(currentG + 1 + heuristic nb endP, st.counter, nb)]).length ≤
        2 * (gWeight st.gScore +
        (cellCount m - st.gScore.length) * cellCount m) + st.openSet.length
      rw [List.length_append]
      simp only [List.length_singleton]
      omega

lemma foldl_relax_midinv {m : Grid} {start endP cur : Pos} {currentG : Int} :
    ∀ (L : List Pos) (st : AState), (∀ q ∈ L, q ∈ getNeighbors m cur) →
      MidInv m start endP cur currentG st →
      MidInv m start endP cur currentG (L.foldl (relax endP currentG) st) ∧
      (∀ p, (lookup st.gScore p).isSome = true →
        (lookup (L.foldl (relax endP currentG) st).gScore p).isSome = true) ∧
      (∀ q ∈ L,
        (lookup (L.foldl (relax endP currentG) st).gScore q).isSome = true) ∧
      loopMeasure m (L.foldl (relax endP currentG) st) ≤ loopMeasure m st := by
  intro L
  induction L with
  | nil =>
    intro st _ hI
    exact ⟨hI, fun p hp => hp, by simp, le_refl _⟩
  | cons x t ih =>
    intro st hL hI
    have hx := hL x (List.mem_cons_self _ _)
    obtain ⟨hI1, hxkeyed, hmono, hmeas⟩ := relax_midinv hI hx
    have ht : ∀ q ∈ t, q ∈ getNeighbors m cur :=
      fun q hq => hL q (List.mem_cons_of_mem _ hq)
    obtain ⟨hI2, hmono2, hkeyed2, hmeas2⟩ := ih (relax endP currentG st x) ht hI1
    refine ⟨hI2, fun p hp => hmono2 p (hmono p hp), ?_, le_trans hmeas2 hmeas⟩
    intro q hq
    rcases List.mem_cons.mp hq with rfl | hq'
    · exact hmono2 q hxkeyed
    · exact hkeyed2 q hq'

lemma midinv_of_inv {m : Grid} {start endP : Pos} {s : AState} {e : Entry}
    {rest : List Entry} {currentG : Int}
    (hI : Inv m start endP s) (hpop : popMin s.openSet = some (e, rest))
    (hg : lookup s.gScore (entryPos e) = some currentG)
    (hne : entryPos e ≠ endP) :
    MidInv m start endP (entryPos e) currentG
      { s with openSet := rest,
               openSetHash := discardP s.openSetHash (entryPos e),
               bestGoalCost := none } := by
  have hs := slim_mid hI.toSlimInv hpop
  refine ⟨hs, hI.keys_nodup, hI.keys_inb, hI.val_nonneg, hI.val_lt, hg,
    ?_, ?_, ?_, hI.start_keyed⟩
  · intro hc
    exact (mem_discardP.mp hc).2 rfl
  · intro kv hkv hkv_hash hkv_cur q hq
    have hn : kv.1 ∉ s.openSetHash := by
      intro hmem
      exact hkv_hash (mem_discardP.mpr ⟨hmem, hkv_cur⟩)
    exact hI.closure kv hkv hn q hq
  · intro hE
    exact mem_discardP.mpr ⟨hI.end_pending hE, fun he => hne he.symm⟩

lemma step_next_inv {m : Grid} {start endP : Pos} {s s' : AState}
    (hI : Inv m start endP s) (h : step m endP s = .next s') :
    Inv m start endP s' ∧ loopMeasure m s' < loopMeasure m s ∧
    (∀ p, (lookup s.gScore p).isSome = true →
      (lookup s'.gScore p).isSome = true) := by
  obtain ⟨e, rest, currentG, hpop, hlook, hE, rfl⟩ := step_next_elim hI.toSlimInv h
  have hmidinv := midinv_of_inv hI hpop hlook hE
  obtain ⟨hI2, hmono, hkeyed, hmeas⟩ :=
    foldl_relax_midinv (getNeighbors m (entryPos e))
      { s with openSet := rest,
               openSetHash := discardP s.openSetHash (entryPos e),
               bestGoalCost := none }
      (fun q hq => hq) hmidinv
  have hmeas_mid : (2 * potential m s + rest.length) + 1 = loopMeasure m s := by
    have hlen := popMin_some_length hpop
    show 2 * potential m s + rest.length + 1 = 2 * potential m s + s.openSet.length
    omega
  refine ⟨?_, ?_, fun p hp => hmono p hp⟩
  · exact
      { toSlimInv := hI2.toSlimInv
        keys_nodup := hI2.keys_nodup
        keys_inb := hI2.keys_inb
        val_nonneg := hI2.val_nonneg
        val_lt := hI2.val_lt
        closure := by
          intro kv hkv hkv_hash q hq
          by_cases hc : kv.1 = entryPos e
          · exact hkeyed q (hc ▸ hq)
          · exact hI2.closure_except kv hkv hkv_hash hc q hq
        end_pending := hI2.end_pending
        start_keyed := hI2.start_keyed }
  · have : loopMeasure m
        ((getNeighbors m (entryPos e)).foldl (relax endP currentG)
          { s with openSet := rest,
                   openSetHash := discardP s.openSetHash (entryPos e),
                   bestGoalCost := none }) ≤ 2 * potential m s + rest.length :=
      hmeas
    omega

/-! ## The walk invariant -/

lemma relax_walk {m : Grid} {start endP cur : Pos} {currentG : Int}
    {st : AState} {nb : Pos} (hW : WalkInv m start st)
    (hcur : Reachable m start cur) (hnb : nb ∈ getNeighbors m cur) :
    WalkInv m start (relax endP currentG st nb) := by
  have hg : ∀ kv ∈ insertG st.gScore nb (currentG + 1),
      Reachable m start kv.1 := by
    intro kv hkv
    rcases mem_insertG hkv with rfl | hkv'
    · exact reachable_snoc hcur hnb
    · exact hW kv hkv'
  rcases improves_or_not st nb currentG with him | hno
  rotate_left
  · obtain ⟨old, hl, hge⟩ := hno
    rw [relax_of_not_improve hl hge]
    exact hW
  by_cases hm : nb ∈ st.openSetHash
  · rw [relax_of_improve_mem him hm]
    exact fun kv hkv => hg kv hkv
  · rw [relax_of_improve_not_mem him hm]
    exact fun kv hkv => hg kv hkv

lemma foldl_relax_walk {m : Grid} {start endP cur : Pos} {currentG : Int} :
    ∀ (L : List Pos) (st : AState), (∀ q ∈ L, q ∈ getNeighbors m cur) →
      WalkInv m start st → Reachable m start cur →
      WalkInv m start (L.foldl (relax endP currentG) st) := by
  intro L
  induction L with
  | nil => intro st _ hW _; exact hW
  | cons x t ih =>
    intro st hL hW hcur
    exact ih (relax endP currentG st x)
      (fun q hq => hL q (List.mem_cons_of_mem _ hq))
      (relax_walk hW hcur (hL x (List.mem_cons_self _ _))) hcur

lemma step_next_walk {m : Grid} {start endP : Pos} {s s' : AState}
    (hI : Inv m start endP s) (hW : WalkInv m start s)
    (h : step m endP s = .next s') : WalkInv m start s' := by
  obtain ⟨e, rest, currentG, hpop, hlook, hE, rfl⟩ := step_next_elim hI.toSlimInv h
  have hcur : Reachable m start (entryPos e) := hW _ (lookup_mem hlook)
  exact foldl_relax_walk _ _ (fun q hq => hq) (fun kv hkv => hW kv hkv) hcur

/-! ## Complete case analysis of one loop iteration -/

lemma step_cases {m : Grid} {endP : Pos} {s : AState} (hs : SlimInv endP s) :
    (s.openSet = [] ∧ step m endP s = .done false none) ∨
    (∃ e rest currentG, popMin s.openSet = some (e, rest) ∧
      lookup s.gScore (entryPos e) = some currentG ∧
      ((entryPos e = endP ∧ step m endP s = .done true (some currentG)) ∨
       (entryPos e ≠ endP ∧
         step m endP s = .next ((getNeighbors m (entryPos e)).foldl
           (relax endP currentG)
           { s with openSet := rest,
                    openSetHash := discardP s.openSetHash (entryPos e),
                    bestGoalCost := none })))) := by
  cases hpop : popMin s.openSet with
  | none =>
    refine Or.inl ⟨popMin_eq_none.mp hpop, ?_⟩
    unfold step
    rw [hpop, hs.best_none]
  | some er =>
    obtain ⟨e, rest⟩ := er
    have hememb := popMin_some_mem hpop
    obtain ⟨cg, hlook⟩ := Option.isSome_iff_exists.mp (hs.pos_keyed e hememb)
    refine Or.inr ⟨e, rest, cg, rfl, hlook, ?_⟩
    by_cases hE : entryPos e = endP
    · refine Or.inl ⟨hE, ?_⟩
      obtain ⟨v, hv, hvf⟩ := hs.end_entry e hememb hE
      have hveq : v = cg := by
        rw [hE] at hlook
        rw [hlook] at hv
        injection hv with h'
        exact h'.symm
      unfold step
      rw [hpop]
      dsimp only
      rw [hlook]
      dsimp only
      rw [if_pos hE, hs.best_none]
      dsimp only
      rw [if_pos (hveq ▸ hvf)]
    · refine Or.inr ⟨hE, ?_⟩
      unfold step
      rw [hpop]
      dsimp only
      rw [hlook]
      dsimp only
      rw [if_neg hE, hs.best_none]

/-! ## The loop: totality, soundness, completeness -/

lemma runLoop_total {m : Grid} {start endP : Pos} :
    ∀ (n : Nat) (s : AState), Inv m start endP s → loopMeasure m s < n →
      ∃ b c, runLoop m endP n s = some (.ok (b, c)) := by
  intro n
  induction n with
  | zero => intro s _ h; omega
  | succ k ih =>
    intro s hI hm
    rcases step_cases hI.toSlimInv with ⟨_, hstep⟩ | ⟨e, rest, cg, _, _, hcase⟩
    · exact ⟨false, none, by unfold runLoop; rw [hstep]⟩
    · rcases hcase with ⟨_, hstep⟩ | ⟨_, hstep⟩
      · exact ⟨true, some cg, by unfold runLoop; rw [hstep]⟩
      · obtain ⟨hI', hlt, _⟩ := step_next_inv hI hstep
        obtain ⟨b, c, hrun⟩ := ih _ hI' (by omega)
        exact ⟨b, c, by unfold runLoop; rw [hstep]; exact hrun⟩

lemma runLoop_true_reach {m : Grid} {start endP : Pos} :
    ∀ (n : Nat) (s : AState), Inv m start endP s → WalkInv m start s →
      ∀ c, runLoop m endP n s = some (.ok (true, c)) →
        Reachable m start endP := by
  intro n
  induction n with
  | zero => intro s _ _ c h; simp [runLoop] at h
  | succ k ih =>
    intro s hI hW c h
    unfold runLoop at h
    rcases step_cases hI.toSlimInv with ⟨_, hstep⟩ | ⟨e, rest, cg, _, hlook, hcase⟩
    · rw [hstep] at h
      simp at h
    · rcases hcase with ⟨hE, hstep⟩ | ⟨hE, hstep⟩
      · rw [hE] at hlook
        exact hW _ (lookup_mem hlook)
      · rw [hstep] at h
        exact ih _ (step_next_inv hI hstep).1 (step_next_walk hI hW hstep) c h

lemma walk_keyed {m : Grid} {start endP : Pos} {s : AState}
    (hI : Inv m start endP s) (hempty : ∀ p : Pos, p ∉ s.openSetHash) :
    ∀ (l : List Pos) (a : Pos), IsWalk m a l →
      (lookup s.gScore a).isSome = true →
      (lookup s.gScore (walkEnd a l)).isSome = true := by
  intro l
  induction l with
  | nil => intro a _ ha; exact ha
  | cons x t ih =>
    intro a hw ha
    obtain ⟨hax, hwt⟩ := hw
    obtain ⟨v, hv⟩ := Option.isSome_iff_exists.mp ha
    have hmem : (a, v) ∈ s.gScore := lookup_mem hv
    exact ih x hwt (hI.closure (a, v) hmem (hempty a) x hax)

lemma unreachable_of_empty {m : Grid} {start endP : Pos} {s : AState}
    (hI : Inv m start endP s) (hempty : s.openSet = []) :
    ¬ Reachable m start endP := by
  rintro ⟨l, hw, he⟩
  have hhash : ∀ p : Pos, p ∉ s.openSetHash := by
    intro p hp
    have := (hI.hash_iff p).mp hp
    rw [hempty] at this
    simp at this
  have hkeyed := walk_keyed hI hhash l start hw hI.start_keyed
  rw [he] at hkeyed
  exact hhash endP (hI.end_pending hkeyed)

lemma runLoop_false_unreach {m : Grid} {start endP : Pos} :
    ∀ (n : Nat) (s : AState), Inv m start endP s →
      ∀ c, runLoop m endP n s = some (.ok (false, c)) →
        ¬ Reachable m start endP := by
  intro n
  induction n with
  | zero => intro s _ c h; simp [runLoop] at h
  | succ k ih =>
    intro s hI c h
    unfold runLoop at h
    rcases step_cases hI.toSlimInv with ⟨hemp, hstep⟩ | ⟨e, rest, cg, _, hlook, hcase⟩
    · exact unreachable_of_empty hI hemp
    · rcases hcase with ⟨hE, hstep⟩ | ⟨hE, hstep⟩
      · rw [hstep] at h
        simp at h
      · rw [hstep] at h
        exact ih _ (step_next_inv hI hstep).1 c h

/-! ## Initial state facts and assembly of `find_path` -/

lemma inv_init {m : Grid} {start endP : Pos} (hb : inBounds m start) :
    Inv m start endP (initState start) := by
  refine ⟨sliminv_init start endP, by simp [initState], ?_, ?_, ?_, ?_, ?_, ?_⟩
  · intro kv hkv
    rcases List.mem_singleton.mp hkv with rfl
    exact hb
  · intro kv hkv
    rcases List.mem_singleton.mp hkv with rfl
    exact le_refl 0
  · intro kv hkv
    rcases List.mem_singleton.mp hkv with rfl
    simp [initState]
  · intro kv hkv hkv_hash q hq
    rcases List.mem_singleton.mp hkv with rfl
    exact absurd (List.mem_singleton.mpr rfl) hkv_hash
  · intro hE
    show endP ∈ [start]
    by_cases he : start = endP
    · simp [he]
    · rw [show lookup (initState start).gScore endP =
        if start = endP then some 0 else none from rfl, if_neg he] at hE
      cases hE
  · show (lookup [(start, (0 : Int))] start).isSome = true
    simp [lookup]

lemma walkinv_init {m : Grid} {start : Pos} :
    WalkInv m start (initState start) := by
  intro kv hkv
  rcases List.mem_singleton.mp hkv with rfl
  exact reachable_refl m start

lemma initial_measure_lt (m : Grid) (start : Pos) :
    loopMeasure m (initState start) < searchFuel m := by
  show 2 * (gWeight [(start, (0 : Int))] +
    (cellCount m - 1) * cellCount m) + 1 < 2 * cellCount m * cellCount m + 2
  have hgw : gWeight [(start, (0 : Int))] = 0 := rfl
  rw [hgw]
  rcases Nat.eq_zero_or_pos (cellCount m) with h0 | hpos
  · rw [h0]
    norm_num
  · obtain ⟨k, hk⟩ : ∃ k, cellCount m = k + 1 :=
      ⟨cellCount m - 1, by omega⟩
    rw [hk]
    have : (k + 1 - 1) * (k + 1) = k * (k + 1) := by norm_num
    rw [this]
    nlinarith

lemma findPathFull_search {m : Grid} {start endP : Pos}
    (h1 : inBounds m start) (h2 : inBounds m endP)
    (h3 : ¬(cellAt m start.1 start.2 = some 1 ∨ cellAt m endP.1 endP.2 = some 1))
    (h4 : start ≠ endP) :
    findPathFull m start endP =
      runLoop m endP (searchFuel m) (initState start) := by
  unfold findPathFull
  rw [if_neg (not_not_intro h1), if_neg (not_not_intro h2), if_neg h3,
    if_neg h4]

lemma findPathFull_total (m : Grid) (start endP : Pos) :
    ∃ b c, findPathFull m start endP = some (.ok (b, c)) := by
  unfold findPathFull
  by_cases h1 : inBounds m start
  · by_cases h2 : inBounds m endP
    · by_cases h3 : cellAt m start.1 start.2 = some 1 ∨
          cellAt m endP.1 endP.2 = some 1
      · exact ⟨false, none, by
          rw [if_neg (not_not_intro h1), if_neg (not_not_intro h2), if_pos h3]⟩
      · by_cases h4 : start = endP
        · exact ⟨true, none, by
            rw [if_neg (not_not_intro h1), if_neg (not_not_intro h2),
              if_neg h3, if_pos h4]⟩
        · obtain ⟨b, c, hrun⟩ := runLoop_total (searchFuel m) (initState start)
            (inv_init h1) (initial_measure_lt m start)
          exact ⟨b, c, by
            rw [if_neg (not_not_intro h1), if_neg (not_not_intro h2),
              if_neg h3, if_neg h4]
            exact hrun⟩
    · exact ⟨false, none, by rw [if_neg (not_not_intro h1), if_pos h2]⟩
  · exact ⟨false, none, by rw [if_pos h1]⟩

lemma find_path_eq {m : Grid} {start endP : Pos} {b : Bool} {c : Option Int}
    (h : findPathFull m start endP = some (.ok (b, c))) :
    find_path m start endP = some (.ok b) := by
  unfold find_path
  rw [h]
  rfl

lemma find_path_true_iff {m : Grid} {start endP : Pos}
    (hs : OpenCell m start) (he : OpenCell m endP) :
    (find_path m start endP = some (.ok true) ↔ Reachable m start endP) := by
  by_cases heq : start = endP
  · subst heq
    have hfull : findPathFull m start start = some (.ok (true, none)) := by
      have h3 : ¬(cellAt m start.1 start.2 = some 1 ∨
          cellAt m start.1 start.2 = some 1) := by
        rw [hs.2]
        simp
      unfold findPathFull
      rw [if_neg (not_not_intro hs.1), if_neg (not_not_intro hs.1),
        if_neg h3, if_pos rfl]
    exact iff_of_true (find_path_eq hfull) (reachable_refl m start)
  · have h3 : ¬(cellAt m start.1 start.2 = some 1 ∨
        cellAt m endP.1 endP.2 = some 1) := by
      rw [hs.2, he.2]
      simp
    have hsearch := findPathFull_search hs.1 he.1 h3 heq
    obtain ⟨b, c, hrun⟩ := runLoop_total (searchFuel m) (initState start)
      (inv_init hs.1) (initial_measure_lt m start)
    have hfp : find_path m start endP = some (.ok b) :=
      find_path_eq (by rw [hsearch]; exact hrun)
    cases b
    · exact iff_of_false (by rw [hfp]; simp)
        (runLoop_false_unreach (searchFuel m) (initState start)
          (inv_init hs.1) c hrun)
    · exact iff_of_true hfp
        (runLoop_true_reach (searchFuel m) (initState start)
          (inv_init hs.1) walkinv_init c hrun)

/-! ## The first-pop variant agrees with the implemented search -/

lemma stepFP_eq_step {m : Grid} {endP : Pos} {s : AState}
    (hb : s.bestGoalCost = none) : stepFP m endP s = step m endP s := by
  unfold step stepFP
  cases hpop : popMin s.openSet with
  | none => rfl
  | some er =>
    obtain ⟨e, rest⟩ := er
    dsimp only
    cases hlook : lookup s.gScore (entryPos e) with
    | none => rfl
    | some cg =>
      dsimp only
      rw [hb]
      by_cases hE : entryPos e = endP
      · rw [if_pos hE, if_pos ⟨hE, rfl⟩]
      · rw [if_neg hE, if_neg (fun hc => hE hc.1)]

lemma runLoopFP_eq {m : Grid} {endP : Pos} :
    ∀ (n : Nat) (s : AState), SlimInv endP s →
      runLoopFP m endP n s = runLoop m endP n s := by
  intro n
  induction n with
  | zero => intro s _; rfl
  | succ k ih =>
    intro s hs
    unfold runLoopFP runLoop
    rw [stepFP_eq_step hs.best_none]
    cases hstep : step m endP s with
    | fail => rfl
    | done b c => rfl
    | next s' => exact ih s' (step_next_slim hs hstep)

lemma findPathFullFP_eq (m : Grid) (start endP : Pos) :
    findPathFullFP m start endP = findPathFull m start endP := by
  unfold findPathFullFP findPathFull
  by_cases h1 : inBounds m start
  · by_cases h2 : inBounds m endP
    · by_cases h3 : cellAt m start.1 start.2 = some 1 ∨
          cellAt m endP.1 endP.2 = some 1
      · rw [if_neg (not_not_intro h1), if_neg (not_not_intro h1),
          if_neg (not_not_intro h2), if_neg (not_not_intro h2),
          if_pos h3, if_pos h3]
      · by_cases h4 : start = endP
        · rw [if_neg (not_not_intro h1), if_neg (not_not_intro h1),
            if_neg (not_not_intro h2), if_neg (not_not_intro h2),
            if_neg h3, if_neg h3, if_pos h4, if_pos h4]
        · rw [if_neg (not_not_intro h1), if_neg (not_not_intro h1),
            if_neg (not_not_intro h2), if_neg (not_not_intro h2),
            if_neg h3, if_neg h3, if_neg h4, if_neg h4]
          exact runLoopFP_eq (searchFuel m) (initState start)
            (sliminv_init start endP)
    · rw [if_neg (not_not_intro h1), if_neg (not_not_intro h1),
        if_pos h2, if_pos h2]
  · rw [if_pos h1, if_pos h1]

/-! ## Valid cells on rectangular binary grids -/

lemma cellAt_isSome_of_inBounds {m : Grid} {p : Pos} (hrect : Rectangular m)
    (hb : inBounds m p) :
    ∃ v, cellAt m p.1 p.2 = some v ∧ ∃ row ∈ m, v ∈ row := by
  obtain ⟨h1, h2, h3, h4⟩ := hb
  unfold cellAt
  rw [if_pos ⟨h1, h3⟩]
  have hrow : p.1.toNat < m.length := by
    unfold gridRows at h2
    omega
  rw [List.get?_eq_get hrow]
  have hrowmem : m.get ⟨p.1.toNat, hrow⟩ ∈ m := List.get_mem m _ _
  have hcol : p.2.toNat < (m.get ⟨p.1.toNat, hrow⟩).length := by
    have hlen := hrect _ hrowmem
    rw [gridCols_eq_colsNat] at hlen h4
    have : (m.get ⟨p.1.toNat, hrow⟩).length = colsNat m := by exact_mod_cast hlen
    omega
  rw [Option.some_bind, List.get?_eq_get hcol]
  exact ⟨_, rfl, _, hrowmem, List.get_mem _ _ _⟩

lemma cellAt_open_of_valid {m : Grid} {p : Pos} (hrect : Rectangular m)
    (hbin : BinaryGrid m) (hb : inBounds m p)
    (h1 : ¬ cellAt m p.1 p.2 = some 1) : cellAt m p.1 p.2 = some 0 := by
  obtain ⟨v, hv, row, hrow, hvrow⟩ := cellAt_isSome_of_inBounds hrect hb
  rcases hbin row hrow v hvrow with rfl | rfl
  · exact hv
  · exact absurd hv h1

/-! ## Rejected queries -/

lemma findPathFull_invalid (m : Grid) (s e : Pos)
    (h : ¬ inBounds m s ∨ ¬ inBounds m e ∨ cellAt m s.1 s.2 = some 1 ∨
      cellAt m e.1 e.2 = some 1) :
    findPathFull m s e = some (.ok (false, none)) := by
  unfold findPathFull
  split_ifs with h1 h2 h3 h4 <;> first | rfl | tauto

/-! ## The claims -/

/-- Claim C1: for every rectangular binary grid and every pair of in-bounds,
unoccupied coordinates (including `start = endP`), `find_path` returns `true`
exactly when a 4-directionally-connected walk of open cells leads from
`start` to `endP`. -/
theorem find_path_iff_reachable (m : Grid) (start endP : Pos)
    (_hrect : Rectangular m) (_hbin : BinaryGrid m)
    (hs : OpenCell m start) (he : OpenCell m endP) :
    (find_path m start endP = some (.ok true) ↔ Reachable m start endP) :=
  find_path_true_iff hs he

theorem find_path_iff_reachable_check :
    (Rectangular rowGrid ∧ BinaryGrid rowGrid ∧ OpenCell rowGrid (0, 0) ∧
      OpenCell rowGrid (0, 1)) ∧
    (find_path rowGrid (0, 0) (0, 1) = some (.ok true) ↔
      Reachable rowGrid (0, 0) (0, 1)) :=
  ⟨⟨by decide, by decide, by decide, by decide⟩,
    find_path_iff_reachable rowGrid (0, 0) (0, 1) (by decide) (by decide)
      (by decide) (by decide)⟩

/-- Claim C2 is REFUTED by this run: on the rectangular binary grid
`cexGrid`, with the distinct in-bounds open endpoints `(2,0)` and `(0,7)`,
the search returns `true` via the termination check with a recorded
`best_goal_cost` of `13`, yet `cexWalk` is a 4-directional walk of open
cells from `(2,0)` to `(0,7)` of only `11` steps, so the recorded cost is
not the shortest path length. -/
theorem best_goal_cost_not_shortest_run :
    findPathFull cexGrid (2, 0) (0, 7) = some (.ok (true, some 13)) ∧
    OpenCell cexGrid (2, 0) ∧ OpenCell cexGrid (0, 7) ∧
    ((2, 0) : Pos) ≠ ((0, 7) : Pos) ∧
    IsWalk cexGrid (2, 0) cexWalk ∧
    walkEnd (2, 0) cexWalk = (0, 7) ∧
    cexWalk.length = 11 :=
  ⟨by rfl, by decide, by decide, by decide, by decide, by rfl, by rfl⟩

/-- Claim C3 is REFUTED by this run: on `bugGrid` with goal `(0,4)`,
iteration 6 of the search pops `(2,1)` (whose recorded `g` is `2`) while
the neighbor `(2,2)` is still pending in the frontier (one entry, and it
is in the membership set) with recorded `g = 5`; the strictly better
`tentative_g = 3 < 5` is recorded in the score map, but after the
iteration the frontier still holds exactly one entry for `(2,2)` — no new
entry was pushed, because the push is guarded by membership in
`open_set_hash`. -/
theorem better_g_no_push_run :
    ((2, 2) : Pos) ∈ getNeighbors bugGrid (2, 1) ∧
    (iterA bugGrid (0, 4) 6 (initState (1, 0))).bind
        (fun st => (popMin st.openSet).map fun er => entryPos er.1) =
      some (2, 1) ∧
    (iterA bugGrid (0, 4) 6 (initState (1, 0))).map
        (fun st => lookup st.gScore (2, 1)) = some (some 2) ∧
    (iterA bugGrid (0, 4) 6 (initState (1, 0))).map
        (fun st => (lookup st.gScore (2, 2), countPos st.openSet (2, 2),
          decide ((2, 2) ∈ st.openSetHash))) = some (some 5, 1, true) ∧
    (iterA bugGrid (0, 4) 7 (initState (1, 0))).map
        (fun st => (lookup st.gScore (2, 2), countPos st.openSet (2, 2))) =
      some (some 3, 1) :=
  ⟨by decide, by rfl, by rfl, by rfl, by rfl⟩

/-- Claim C4: recording the goal cost only on the first pop of the goal
(dropping the `min` with a prior value) gives the same result on every
grid and query, and the `min`-taking else-branch is dead: at the start of
every loop iteration `best_goal_cost` is still `None` (once it is set the
same iteration returns). -/
theorem goal_cost_min_update_dead (m : Grid) (start endP : Pos) :
    findPathFullFP m start endP = findPathFull m start endP ∧
    ∀ (n : Nat) (st : AState), iterA m endP n (initState start) = some st →
      st.bestGoalCost = none :=
  ⟨findPathFullFP_eq m start endP, fun n st h =>
    (iterA_slim n (initState start) st h (sliminv_init start endP)).best_none⟩

theorem goal_cost_min_update_dead_check :
    iterA bugGrid (0, 4) 2 (initState (1, 0)) = some wStateC4 ∧
    findPathFullFP bugGrid (1, 0) (0, 4) = findPathFull bugGrid (1, 0) (0, 4) ∧
    wStateC4.bestGoalCost = none :=
  ⟨by rfl, (goal_cost_min_update_dead bugGrid (1, 0) (0, 4)).1,
    (goal_cost_min_update_dead bugGrid (1, 0) (0, 4)).2 2 wStateC4 (by rfl)⟩

/-- Claim C5: on a rectangular binary grid, `find_path` terminates with a
definite boolean for every pair of coordinates, in-bounds or not; no error
(the embedded `KeyError` case) and no fuel exhaustion is reachable. -/
theorem find_path_total_ok (m : Grid) (start endP : Pos)
    (_hrect : Rectangular m) (_hbin : BinaryGrid m) :
    ∃ b : Bool, find_path m start endP = some (.ok b) := by
  obtain ⟨b, c, h⟩ := findPathFull_total m start endP
  exact ⟨b, find_path_eq h⟩

theorem find_path_total_ok_check :
    (Rectangular rowGrid ∧ BinaryGrid rowGrid) ∧
    ∃ b : Bool, find_path rowGrid (0, 0) (5, 5) = some (.ok b) :=
  ⟨⟨by decide, by decide⟩,
    find_path_total_ok rowGrid (0, 0) (5, 5) (by decide) (by decide)⟩

/-- Claim C6: when `start` or `endP` is out of bounds, or either endpoint
cell holds a wall, `find_path` returns `false` (and no goal cost), with no
exception, regardless of the other endpoint. -/
theorem invalid_query_false (m : Grid) (s e : Pos)
    (h : ¬ inBounds m s ∨ ¬ inBounds m e ∨ cellAt m s.1 s.2 = some 1 ∨
      cellAt m e.1 e.2 = some 1) :
    find_path m s e = some (.ok false) ∧
    findPathFull m s e = some (.ok (false, none)) :=
  ⟨find_path_eq (findPathFull_invalid m s e h), findPathFull_invalid m s e h⟩

theorem invalid_query_false_check :
    ¬ inBounds bugGrid (5, 0) ∧
    find_path bugGrid (5, 0) (0, 0) = some (.ok false) ∧
    findPathFull bugGrid (5, 0) (0, 0) = some (.ok (false, none)) :=
  ⟨by decide, (invalid_query_false bugGrid (5, 0) (0, 0) (Or.inl (by decide))).1,
    (invalid_query_false bugGrid (5, 0) (0, 0) (Or.inl (by decide))).2⟩

/-- Claim C7: on a rectangular binary grid the answer is symmetric in the
two endpoints: `find_path m a b = find_path m b a` for all coordinates,
valid or not. -/
theorem find_path_symm (m : Grid) (a b : Pos) (hrect : Rectangular m)
    (hbin : BinaryGrid m) : find_path m a b = find_path m b a := by
  by_cases hv : ¬ inBounds m a ∨ ¬ inBounds m b ∨ cellAt m a.1 a.2 = some 1 ∨
      cellAt m b.1 b.2 = some 1
  · have hvb : ¬ inBounds m b ∨ ¬ inBounds m a ∨ cellAt m b.1 b.2 = some 1 ∨
        cellAt m a.1 a.2 = some 1 := by tauto
    rw [find_path_eq (findPathFull_invalid m a b hv),
      find_path_eq (findPathFull_invalid m b a hvb)]
  · push_neg at hv
    obtain ⟨ha, hb, ha1, hb1⟩ := hv
    have hoA : OpenCell m a := ⟨ha, cellAt_open_of_valid hrect hbin ha ha1⟩
    have hoB : OpenCell m b := ⟨hb, cellAt_open_of_valid hrect hbin hb hb1⟩
    obtain ⟨b1, c1, h1⟩ := findPathFull_total m a b
    obtain ⟨b2, c2, h2⟩ := findPathFull_total m b a
    have e1 := find_path_eq h1
    have e2 := find_path_eq h2
    have hb12 : b1 = b2 := by
      cases b1 <;> cases b2
      · rfl
      · exfalso
        have hr : Reachable m b a := (find_path_true_iff hoB hoA).mp e2
        have hr' : Reachable m a b := reachable_symm hoB hr
        have hc := (find_path_true_iff hoA hoB).mpr hr'
        rw [e1] at hc
        simp at hc
      · exfalso
        have hr : Reachable m a b := (find_path_true_iff hoA hoB).mp e1
        have hr' : Reachable m b a := reachable_symm hoA hr
        have hc := (find_path_true_iff hoB hoA).mpr hr'
        rw [e2] at hc
        simp at hc
      · rfl
    rw [e1, e2, hb12]

theorem find_path_symm_check :
    (Rectangular bugGrid ∧ BinaryGrid bugGrid) ∧
    find_path bugGrid (1, 0) (0, 4) = find_path bugGrid (0, 4) (1, 0) :=
  ⟨⟨by decide, by decide⟩,
    find_path_symm bugGrid (1, 0) (0, 4) (by decide) (by decide)⟩

/-- Claim C8: the neighbor enumerator of `(r, c)` is exactly the list of
the four offset results `(r-1,c), (r+1,c), (r,c-1), (r,c+1)`, in that
order, filtered to the in-bounds unoccupied ones; hence it has length at
most 4, has no duplicate, and every returned coordinate is in-bounds and
open. -/
theorem getNeighbors_exact (m : Grid) (r c : Int) :
    getNeighbors m (r, c) =
      ([((r - 1 : Int), c), (r + 1, c), (r, c - 1), (r, c + 1)] : List Pos).filter
        (fun q => decide (inBounds m q ∧ cellAt m q.1 q.2 = some 0)) ∧
    (getNeighbors m (r, c)).length ≤ 4 ∧
    (getNeighbors m (r, c)).Nodup ∧
    ∀ q ∈ getNeighbors m (r, c), inBounds m q ∧ cellAt m q.1 q.2 = some 0 := by
  have hmap : (directions.map fun d =>
      (((r, c) : Pos).1 + d.1, ((r, c) : Pos).2 + d.2)) =
      ([((r - 1 : Int), c), (r + 1, c), (r, c - 1), (r, c + 1)] : List Pos) := by
    simp [directions, Prod.ext_iff]
    omega
  have heq := getNeighbors_eq_filter m (r, c)
  rw [hmap] at heq
  have hnodup : ([((r - 1 : Int), c), (r + 1, c), (r, c - 1),
      (r, c + 1)] : List Pos).Nodup := by
    simp [List.nodup_cons, Prod.ext_iff]
    omega
  refine ⟨heq, ?_, ?_, ?_⟩
  · rw [heq]
    have hle := List.length_filter_le
      (fun q => decide (inBounds m q ∧ cellAt m q.1 q.2 = some 0))
      ([((r - 1 : Int), c), (r + 1, c), (r, c - 1), (r, c + 1)] : List Pos)
    simpa using hle
  · rw [heq]
    exact hnodup.filter _
  · intro q hq
    rw [heq] at hq
    have hmem := List.of_mem_filter hq
    simpa using hmem

/-- Claim C9: the heuristic is the Manhattan distance
`|a.row - b.row| + |a.col - b.col|`; it is symmetric, vanishes on the
diagonal, and is nonnegative. -/
theorem heuristic_manhattan (a b : Pos) :
    heuristic a b = |a.1 - b.1| + |a.2 - b.2| ∧
    heuristic a b = heuristic b a ∧
    heuristic a a = 0 ∧
    0 ≤ heuristic a b := by
  refine ⟨rfl, ?_, ?_, ?_⟩
  · unfold heuristic
    rw [abs_sub_comm, abs_sub_comm a.2]
  · unfold heuristic
    simp
  · unfold heuristic
    positivity

/-- Claim C10: at the start of every iteration of the search loop the
membership set holds exactly the coordinates of the frontier entries, no
coordinate occurs in two frontier entries at once, and every frontier
coordinate is a key of the score map, so the lookup after a pop never
fails. -/
theorem search_loop_invariant (m : Grid) (start endP : Pos) (n : Nat)
    (st : AState) (h : iterA m endP n (initState start) = some st) :
    (∀ p : Pos, p ∈ st.openSetHash ↔ p ∈ st.openSet.map entryPos) ∧
    (st.openSet.map entryPos).Nodup ∧
    ∀ ent ∈ st.openSet, (lookup st.gScore (entryPos ent)).isSome = true := by
  have hs := iterA_slim n (initState start) st h (sliminv_init start endP)
  exact ⟨hs.hash_iff, hs.pos_nodup, hs.pos_keyed⟩

theorem search_loop_invariant_check :
    iterA bugGrid (0, 4) 3 (initState (1, 0)) = some wStateC10 ∧
    ((∀ p : Pos, p ∈ wStateC10.openSetHash ↔
        p ∈ wStateC10.openSet.map entryPos) ∧
      (wStateC10.openSet.map entryPos).Nodup ∧
      ∀ ent ∈ wStateC10.openSet,
        (lookup wStateC10.gScore (entryPos ent)).isSome = true) :=
  ⟨by rfl, search_loop_invariant bugGrid (1, 0) (0, 4) 3 wStateC10 (by rfl)⟩

end MazeCheck
